import Mathlib

/-!
Verification development for `chessgraph.py` (robertnurnberg/chessgraph).

The Python source is shallowly embedded as follows:

* The external chess-rules library (`python-chess`) is abstracted as a
  `ChessRules` record of pure functions on canonical EPD strings: `board.epd()`
  after a move becomes `childEpd`, `board.san` becomes `san`,
  `board.legal_moves.count()` becomes `legalMovesCount`, and the predicates
  `is_checkmate` / `is_stalemate` / check status / `board.turn` become boolean
  functions of the EPD.  `ChessRules.WF` states the two facts of chess that the
  source relies on: a checkmate is exactly "no legal move and in check" and a
  stalemate exactly "no legal move and not in check".
* Python integers are `Int`, counters are `Nat`.  The depth-decay expression
  `int(1.5 + math.log(edgesfound) / math.log(2))` is embedded exactly (floats
  replaced by the exact real value it rounds): `decayPly k` computes
  `⌊1.5 + log₂ k⌋` for `k ≥ 1`, see `decayPly_eq_floor`.
* `sorted(moves, key=score, reverse=True)` is a stable descending sort; any two
  stable sorts agree, so it is embedded as the stable insertion sort `sortDesc`.
* The graphviz side effects `self.graph.node` / `self.graph.edge`, the visited
  set, the submissions to `self.executorgraph[depth]` and the score-fetch calls
  submitted to `self.executorwork` are all recorded in an explicit state
  `GState` (append-only event logs).  A `SubmitEvent` mirrors the argument list
  of `self.executorgraph[depth].submit(self.recurse, ...)`, with `poolIndex`
  recording the executor index used (the submitting task's own `depth`).
* The visited gate (lines 326-329) is a non-atomic check-then-add on an
  unlocked set; it is modelled as two pieces so both kinds of schedule are
  expressible: `recurseFuel` performs the membership check and, when it
  passes, runs `taskBody` (whose first action is the add).  `recurseFuel`
  itself is the single-thread schedule, in which the gate acts atomically: a
  task runs its expansion loop, then the child tasks it submitted run one
  after the other (`concurrent.futures.wait`), then the task writes its node.
  The racy schedule in which two workers both pass the gate before either
  adds is expressed by running `taskBody` twice (`C1_dedup_race`).
  `recurseFuel` carries a `fuel` argument purely to make the recursion
  structural; fuel `depth.toNat + 1` never runs out because every submitted
  child has `0 ≤ childDepth < depth` (`expandLoop_pending`), so the
  fuel-exhaustion branch is unreachable from `recurse`
  (`recurseFuel_fuel_irrel`).
* A provider call that raises is modelled as `Except.error`; `recurse` returns
  the escaping exception in its second component.  Exceptions of child futures
  are never retrieved by the source (`concurrent.futures.wait` does not
  re-raise), so the child-running fold drops the child's error component.
* The provider adapters distinguish the region the source wraps in try/except
  (the backend call, returning `Except`) from the per-move field extraction
  that lies outside it: raw move entries are themselves `Except` values inside
  an ok response, so a malformed entry makes the adapter raise, as in the
  source (lines 145-147 for chessdb, 223-233 for lichess).
* The expansion loop additionally returns a ghost `trace` (one `TraceEntry` per
  candidate that passed the alpha check, recording the values the loop computed
  for it).  The trace is observation only: no operational code reads it.
-/

/-- A ranked move candidate, `{"score": ..., "uci": ...}` in the source. -/
structure MoveCandidate where
  score : Int
  uci : String
deriving DecidableEq, Repr

/-- An emitted graph edge: the semantic arguments of `ChessGraph.write_edge`. -/
structure Edge where
  epdfrom : String
  epdto : String
  sanmove : String
  ucimove : String
  turn : Bool
  score : Int
  pvEdge : Bool
  lateEdge : Bool
deriving DecidableEq, Repr

/-- An emitted graph node: the semantic arguments of `ChessGraph.write_node`. -/
structure Node where
  epd : String
  score : Option Int
  showboard : Bool
  pvNode : Bool
  tooltip : String
deriving DecidableEq, Repr

/-- A task submitted to `self.executorgraph[poolIndex]`.  The fields after
`poolIndex` mirror the argument list of the `submit` call in `recurse`:
child position, `newDepth`, `-beta`, `-alpha`, `pvEdge`, `plyFromRoot + 1`.
`isBest` is a ghost observation recording whether `score == bestscore` held
for the move that spawned this task (the boolean from which `pvEdge` was
computed); it does not influence execution. -/
structure SubmitEvent where
  poolIndex : Int
  epd : String
  depth : Int
  alpha : Int
  beta : Int
  pv : Bool
  ply : Nat
  isBest : Bool
deriving DecidableEq, Repr

/-- Ghost record of one iteration of the expansion loop that passed the alpha
check: the candidate's score, whether it equalled the running best score, the
value of `edgesfound` after the increment (its 1-based rank), and the
`newDepth` the loop computed for it. -/
structure TraceEntry where
  score : Int
  isBest : Bool
  rank : Nat
  newDepth : Int
deriving DecidableEq, Repr

/-- The shared mutable state of a run: `self.visited`, the graphviz node and
edge logs, the log of tasks submitted to the per-depth executors, and the log
of positions for which a score fetch was submitted to `self.executorwork`. -/
structure GState where
  visited : List String
  edges : List Edge
  nodes : List Node
  submits : List SubmitEvent
  fetches : List String
deriving DecidableEq, Repr

/-- The empty state of a fresh `ChessGraph` instance. -/
def GState.empty : GState := ⟨[], [], [], [], []⟩

/-- The external chess-rules library (python-chess), as pure functions on
canonical EPD strings. -/
structure ChessRules where
  /-- EPD of the position after playing a uci move (`board.push`; `board.epd()`). -/
  childEpd : String → String → String
  /-- SAN rendering of a uci move in a position (`board.san`). -/
  san : String → String → String
  /-- Models `board.legal_moves.count()`. -/
  legalMovesCount : String → Nat
  /-- Models `board.is_checkmate()`. -/
  isCheckmate : String → Bool
  /-- Models `board.is_stalemate()`. -/
  isStalemate : String → Bool
  /-- whether the side to move is in check. -/
  inCheck : String → Bool
  /-- Models `board.turn` (`true` = white to move). -/
  turn : String → Bool

/-- The two facts of chess the source relies on: with no legal moves,
checkmate is exactly "in check" and stalemate exactly "not in check";
with legal moves present, neither holds. -/
def ChessRules.WF (R : ChessRules) : Prop :=
  ∀ epd, R.isCheckmate epd = (R.legalMovesCount epd == 0 && R.inCheck epd)
       ∧ R.isStalemate epd = (R.legalMovesCount epd == 0 && !R.inCheck epd)

/-- A score provider, abstracting `self.get_moves` as dispatched through
`self.executorwork`; `Except.error` models a raised exception. -/
abbrev Provider := String → Except String (List MoveCandidate)

/-- Floor base-2 logarithm with explicit structural fuel so that the kernel can evaluate it;
`log2fuel f n = Nat.log 2 n` whenever `n ≤ f` (`log2fuel_eq_log`). -/
def log2fuel : Nat → Nat → Nat
  | 0, _ => 0
  | f + 1, n => if 2 ≤ n then log2fuel f (n / 2) + 1 else 0

/-- Models `int(1.5 + math.log(edgesfound) / math.log(2))` from `recurse`
(the float expression replaced by its exact real value): for `k ≥ 1` this is
`⌊1.5 + log₂ k⌋`, computed as `⌊log₂ (8·k²)⌋ / 2`; see `decayPly_eq_floor`. -/
def decayPly (k : Nat) : Nat := log2fuel (8 * k * k) (8 * k * k) / 2

/-- The `newDepth` computed for a candidate in the expansion loop:
`depth - 1` when its score equals the running best score, otherwise
`depth - int(1.5 + log2(edgesfound))`. -/
def newDepthFor (depth score bestscore : Int) (edgesfound : Nat) : Int :=
  if score == bestscore then depth - 1 else depth - (decayPly edgesfound : Int)

/-- Stable insertion of a candidate into a descending-sorted list: `m` goes in
front of the first element whose score is `≤ m.score` (so among equal scores,
earlier elements of the original list stay first). -/
def insertDesc (m : MoveCandidate) : List MoveCandidate → List MoveCandidate
  | [] => [m]
  | x :: xs => if x.score ≤ m.score then m :: x :: xs else x :: insertDesc m xs

/-- Models `sorted(moves, key=lambda item: item["score"], reverse=True)`:
Python's `sorted` is stable, and any stable descending sort produces the same
list, so a stable insertion sort is extensionally identical. -/
def sortDesc : List MoveCandidate → List MoveCandidate
  | [] => []
  | m :: ms => insertDesc m (sortDesc ms)

/-- Models `ChessGraph.write_edge`: records the emitted edge. -/
def write_edge (st : GState) (e : Edge) : GState :=
  { st with edges := st.edges ++ [e] }

/-- Models `ChessGraph.write_node`: records the emitted node. -/
def write_node (st : GState) (n : Node) : GState :=
  { st with nodes := st.nodes ++ [n] }

/-- Result of the expansion loop of `recurse` (lines 347-394 of the source):
the final values of the loop-carried variables `bestscore`, `edgesfound`,
`edgesdrawn`, `tooltip` and `futures` (as `pending`), the ghost `trace`, and
the updated shared state (edges written). -/
structure LoopResult where
  bestscore : Option Int
  edgesfound : Nat
  edgesdrawn : Nat
  tooltip : String
  pending : List SubmitEvent
  trace : List TraceEntry
  st : GState
deriving Repr

/-- The expansion loop of `recurse`:
`for m in sorted(moves, key=score, reverse=True): ...`.
Candidates are processed in order; the running best score is initialized from
the first candidate; the loop breaks at the first candidate whose score is
`≤ alpha`; a candidate whose `newDepth` is `≥ 0` gets an edge, and a child
task is appended to `pending` when its position is not yet visited. -/
def expandLoop (R : ChessRules) (depth alpha beta : Int) (pvNode : Bool)
    (plyFromRoot : Nat) (epdfrom : String) (turn : Bool) :
    List MoveCandidate → Option Int → Nat → Nat → String →
    List SubmitEvent → List TraceEntry → GState → LoopResult
  | [], bestscore, edgesfound, edgesdrawn, tooltip, pending, trace, st =>
    ⟨bestscore, edgesfound, edgesdrawn, tooltip, pending, trace, st⟩
  | m :: rest, bestscore, edgesfound, edgesdrawn, tooltip, pending, trace, st =>
    let score := m.score
    -- if bestscore is None: bestscore = score
    let best := match bestscore with | none => score | some b => b
    if score ≤ alpha then
      -- break: the loop ends, all later candidates are pruned
      ⟨some best, edgesfound, edgesdrawn, tooltip, pending, trace, st⟩
    else
      let ucimove := m.uci
      let sanmove := R.san epdfrom ucimove
      let epdto := R.childEpd epdfrom ucimove
      let edgesfound' := edgesfound + 1
      let pvEdge := pvNode && (score == best)
      let lateEdge := !(score == best)
      let newDepth := newDepthFor depth score best edgesfound'
      let entry : TraceEntry := ⟨score, score == best, edgesfound', newDepth⟩
      if 0 ≤ newDepth then
        let pending' :=
          if epdto ∈ st.visited then pending
          else pending ++
            [⟨depth, epdto, newDepth, -beta, -alpha, pvEdge, plyFromRoot + 1, score == best⟩]
        let tooltip' := tooltip ++ sanmove ++ " : " ++
          toString (if turn then score else -score) ++ "\n"
        let st' := write_edge st ⟨epdfrom, epdto, sanmove, ucimove, turn, score, pvEdge, lateEdge⟩
        expandLoop R depth alpha beta pvNode plyFromRoot epdfrom turn
          rest (some best) edgesfound' (edgesdrawn + 1) tooltip' pending' (trace ++ [entry]) st'
      else
        -- newDepth < 0: pruned silently, no edge, no recursion
        expandLoop R depth alpha beta pvNode plyFromRoot epdfrom turn
          rest (some best) edgesfound' edgesdrawn tooltip pending (trace ++ [entry]) st

/-- Outcome of the terminal-detection / score-fetch step of `recurse`. -/
inductive FetchOut where
  /-- moves list and initial `bestscore`, with the state updated by the fetch log. -/
  | moves (ms : List MoveCandidate) (bestscore : Option Int) (st : GState)
  /-- the provider raised: `self.executorwork.submit(...).result()` re-raises. -/
  | raised (e : String) (st : GState)
deriving DecidableEq, Repr

/-- Terminal detection and score fetch of `recurse` (lines 331-339):
checkmate gives `([], -30000)`, stalemate `([], 0)`, otherwise the provider is
called (the call is logged in `fetches`) and `bestscore` starts as `None`. -/
def fetchMoves (R : ChessRules) (P : Provider) (epd : String) (st : GState) : FetchOut :=
  if R.isCheckmate epd then .moves [] (some (-30000)) st
  else if R.isStalemate epd then .moves [] (some 0) st
  else
    let st' := { st with fetches := st.fetches ++ [epd] }
    match P epd with
    | .ok ms => .moves ms none st'
    | .error e => .raised e st'

/-- The node written at the end of `recurse` (lines 398-418): tooltip summary
lines, the board-diagram flag
`edgesdrawn >= boardedges or (pvNode and edgesdrawn == 0) or plyFromRoot == 0`,
and the task's `bestscore`. -/
def nodeFor (boardedges : Nat) (pvNode : Bool) (plyFromRoot : Nat) (epdfrom : String)
    (turn : Bool) (legalMovesCount : Nat) (r : LoopResult) : Node :=
  let remainingMoves : Int := (legalMovesCount : Int) - (r.edgesdrawn : Int)
  let tooltip := r.tooltip ++ toString remainingMoves ++ " remaining " ++
    (if remainingMoves == 1 then "move" else "moves") ++ "\n"
  let tooltip :=
    if r.edgesdrawn == 0 then
      tooltip ++ "terminal: " ++
        (match r.bestscore with
         | none => "None"
         | some s => toString (if turn then s else -s))
    else tooltip
  ⟨epdfrom, r.bestscore,
    (boardedges ≤ r.edgesdrawn) || (pvNode && r.edgesdrawn == 0) || (plyFromRoot == 0),
    pvNode, tooltip⟩

/-- The body of one `ChessGraph.recurse` task after its visited gate, starting
with `self.visited.add(epdfrom)` (line 329).  It is kept separate from
`recurseFuel` because the gate at lines 326-329 is a non-atomic check-then-add
on an unlocked Python set: under the GIL each set operation is atomic, but a
thread switch can occur between the membership test and the `add`, so a second
worker holding the same position can pass the gate too and also run this body
(see `C1_dedup_race`).  `runChild` runs one submitted child task
(`recurseFuel` one fuel level down).  The second component of the result is
the exception escaping the task, if any; child tasks run through `List.foldl`
and their second components are dropped, because the source never retrieves
the exception of a child future (`concurrent.futures.wait` does not
re-raise). -/
def taskBody (R : ChessRules) (P : Provider) (boardedges : Nat)
    (runChild : Int → Int → Int → Bool → Nat → String → GState → GState × Option String)
    (depth alpha beta : Int) (pvNode : Bool) (plyFromRoot : Nat)
    (epdfrom : String) (st : GState) : GState × Option String :=
  -- board.legal_moves.count() is evaluated before the gate in the source
  -- (line 323); it is pure, so recomputing it here is equivalent
  let legalMovesCount := R.legalMovesCount epdfrom
  let st1 : GState := { st with visited := epdfrom :: st.visited }
  match fetchMoves R P epdfrom st1 with
  | .raised e st2 => (st2, some e)
  | .moves moves bestscore0 st2 =>
    let turn := R.turn epdfrom
    let r := expandLoop R depth alpha beta pvNode plyFromRoot epdfrom turn
      (sortDesc moves) bestscore0 0 0 (epdfrom ++ "\n") [] [] st2
    let st3 : GState := { r.st with submits := r.st.submits ++ r.pending }
    -- concurrent.futures.wait(futures): run the submitted child tasks
    let st4 := r.pending.foldl
      (fun acc s =>
        (runChild s.depth s.alpha s.beta s.pv s.ply s.epd acc).1)
      st3
    (write_node st4 (nodeFor boardedges pvNode plyFromRoot epdfrom turn legalMovesCount r),
     none)

/-- Models `ChessGraph.recurse` under the single-thread schedule (see the
header comment): the visited gate check, then — when the check passed —
`taskBody`.  In this schedule no other worker can interleave between the check
and the add, i.e. the gate acts atomically; the interleaving where it does not
is exhibited separately on `taskBody` (`C1_dedup_race`).  The first `Nat`
argument is fuel making the recursion structural: every submitted child task
has `0 ≤ childDepth < depth`, so with fuel `> depth.toNat` the fuel-exhaustion
branch is unreachable (`recurse` below always starts with `depth.toNat + 1`,
and `recurseFuel_fuel_irrel` shows any sufficient fuel gives the same
result). -/
def recurseFuel (R : ChessRules) (P : Provider) (boardedges : Nat) :
    Nat → Int → Int → Int → Bool → Nat → String → GState → GState × Option String
  | 0, _, _, _, _, _, _, st => (st, none)
  | fuel + 1, depth, alpha, beta, pvNode, plyFromRoot, epdfrom, st =>
    -- terminate recursion if visited
    if epdfrom ∈ st.visited then (st, none)
    else taskBody R P boardedges (recurseFuel R P boardedges fuel)
      depth alpha beta pvNode plyFromRoot epdfrom st

/-- Models `ChessGraph.recurse`: the fuel `depth.toNat + 1` is always sufficient. -/
def recurse (R : ChessRules) (P : Provider) (boardedges : Nat)
    (depth alpha beta : Int) (pvNode : Bool) (plyFromRoot : Nat)
    (epdfrom : String) (st : GState) : GState × Option String :=
  recurseFuel R P boardedges (depth.toNat + 1) depth alpha beta pvNode plyFromRoot epdfrom st

/-- Models `ChessGraph.generate_graph`: for a black-to-move root the window is
negated, and exploration starts from a fresh state with `pvNode = True` and
`plyFromRoot = 0`. -/
def generate_graph (R : ChessRules) (P : Provider) (boardedges : Nat)
    (depth : Int) (epd : String) (alpha beta : Int) : GState × Option String :=
  if R.turn epd then
    recurse R P boardedges depth alpha beta true 0 epd GState.empty
  else
    recurse R P boardedges depth (-beta) (-alpha) true 0 epd GState.empty

/-- Run-long state invariant backing the dedup property: emitted nodes have
pairwise distinct positions, all already marked visited; likewise for the
score-fetch log. -/
def StInv (st : GState) : Prop :=
  (st.nodes.map (fun nd => nd.epd)).Nodup ∧
  (∀ nd ∈ st.nodes, nd.epd ∈ st.visited) ∧
  st.fetches.Nodup ∧
  (∀ f ∈ st.fetches, f ∈ st.visited)

/-- How a task (together with the child tasks it runs) transforms the shared
state: the visited set, node log and fetch log only grow; every new node and
new fetch is for a position that was not yet visited when the task started;
every new submitted task has a remaining depth that is nonnegative and
strictly below the submitting pool's index; and `StInv` is preserved. -/
def Evolves (st st' : GState) : Prop :=
  st.visited ⊆ st'.visited ∧
  (∀ nd ∈ st.nodes, nd ∈ st'.nodes) ∧
  (∀ f ∈ st.fetches, f ∈ st'.fetches) ∧
  (∀ nd ∈ st'.nodes, nd ∈ st.nodes ∨ nd.epd ∉ st.visited) ∧
  (∀ f ∈ st'.fetches, f ∈ st.fetches ∨ f ∉ st.visited) ∧
  (∀ s ∈ st'.submits, s ∈ st.submits ∨ (0 ≤ s.depth ∧ s.depth < s.poolIndex)) ∧
  (StInv st → StInv st')

/-- The three values of `--source` (restricted by `argparse` `choices`). -/
inductive Source where
  | chessdb
  | engine
  | lichess
deriving DecidableEq, Repr

/-- A key of `self.cache`, mirroring the tuples used by the three adapters:
`(epd, engine, enginedepth, enginemaxmoves)`, `(epd, "chessdb")` and
`(epd, "lichess", enginemaxmoves, lichessdb)`. -/
inductive CacheKey where
  | engineKey (epd engine : String) (enginedepth enginemaxmoves : Nat)
  | chessdbKey (epd : String)
  | lichessKey (epd : String) (enginemaxmoves : Nat) (lichessdb : String)
deriving DecidableEq, Repr

/-- Models `self.cache` as an association list; insertion conses, lookup takes the
most recent binding (so insertion overwrites, like the Python dict). -/
abbrev Cache := List (CacheKey × List MoveCandidate)

/-- Dictionary lookup. -/
def cacheFind : Cache → CacheKey → Option (List MoveCandidate)
  | [], _ => none
  | (k, v) :: rest, key => if k = key then some v else cacheFind rest key

deriving instance DecidableEq for Except

/-- One raw entry of a chessdb `moves` array: reading `m["score"]` and
`m["uci"]` (lines 146-147 of the source, OUTSIDE the try/except) either
yields the scored move or raises (KeyError/TypeError on a malformed entry). -/
abbrev RawChessdbMove := Except String MoveCandidate

/-- Parsed JSON envelope of the chessdb API answer, covering exactly what the
source reads inside its try/except: the `status` field and the raw `moves`
list.  A transport failure, timeout, HTTP error or an envelope that fails to
decode is the backend's `Except.error`; the per-move fields are left raw
(`RawChessdbMove`) because their extraction happens outside the try. -/
structure ChessdbResp where
  status : String
  moves : List RawChessdbMove
deriving DecidableEq, Repr

/-- The fetch of `get_moves_chessdb` (lines 125-151).  The try/except covers
the transport, the JSON decoding and the status dispatch, so a raised
transport error (`Except.error` of the backend) is swallowed by the bare
`except: pass` and contributes no moves, and a status other than `"ok"`
contributes no moves either (`"rate limited exceeded"` and unexpected
statuses only write to stderr).  The per-move extraction loop (lines
145-147) is OUTSIDE the try: a malformed entry raises out of the adapter
and nothing is cached. -/
def chessdbFresh (backend : String → Except String ChessdbResp) (epd : String) :
    Except String (List MoveCandidate) :=
  let moves : List RawChessdbMove :=
    match backend epd with
    | .error _ => []
    | .ok data =>
      if data.status = "ok" then data.moves
      else if data.status = "unknown" then []
      else if data.status = "rate limited exceeded" then []
      else []
  moves.foldlM
    (fun acc rm =>
      match rm with
      | .error e => .error e
      | .ok m => .ok (acc ++ [{ score := m.score, uci := m.uci }]))
    []

/-- Models `ChessGraph.get_moves_chessdb`: a non-empty cached list is returned
as is; an empty or missing cache entry triggers a fresh fetch whose result is
stored (overwriting the empty entry).  A raised per-move extraction error
propagates to the caller and skips the cache write. -/
def get_moves_chessdb (backend : String → Except String ChessdbResp)
    (cache : Cache) (epd : String) : Except String (List MoveCandidate × Cache) :=
  let key := CacheKey.chessdbKey epd
  match cacheFind cache key with
  | some stdmoves =>
    if stdmoves.length > 0 then .ok (stdmoves, cache)
    else
      match chessdbFresh backend epd with
      | .error e => .error e
      | .ok stdmoves => .ok (stdmoves, (key, stdmoves) :: cache)
  | none =>
    match chessdbFresh backend epd with
    | .error e => .error e
    | .ok stdmoves => .ok (stdmoves, (key, stdmoves) :: cache)

/-- Models `ChessGraph.get_moves_engine`: a cache hit (empty or not) is returned as
is; on a miss the engine is started and queried — with **no** exception
handler, so a raised engine error (`Except.error`, e.g. the binary is missing)
propagates to the caller. `engineBackend` abstracts
`popen_uci` + `analyse` + the extraction of `(score, uci)` pairs. -/
def get_moves_engine (engineBackend : String → Except String (List MoveCandidate))
    (engine : String) (enginedepth enginemaxmoves : Nat) (cache : Cache) (epd : String) :
    Except String (List MoveCandidate × Cache) :=
  let key := CacheKey.engineKey epd engine enginedepth enginemaxmoves
  match cacheFind cache key with
  | some moves => .ok (moves, cache)
  | none =>
    match engineBackend epd with
    | .error e => .error e
    | .ok moves => .ok (moves, (key, moves) :: cache)

/-- One move entry of the lichess explorer answer: uci plus win/draw/loss
game counts (as they appear in the JSON, from white's point of view). -/
structure LichessMoveStat where
  uci : String
  white : Nat
  draws : Nat
  black : Nat
deriving DecidableEq, Repr

/-- One raw entry of the lichess `moves` array: reading its `uci` and its
`int(m["white"])` / `int(m["draws"])` / `int(m["black"])` counts (lines
223-233 of the source, outside any try) either yields the parsed entry or
raises on a malformed one. -/
abbrev RawLichessMove := Except String LichessMoveStat

/-- Parsed JSON envelope of the lichess explorer answer, covering what the
source reads inside `lichess_api_call`'s try: the three top-level totals and
the raw `moves` list (whose entries are only read later, outside the try). -/
structure LichessResp where
  white : Nat
  draws : Nat
  black : Nat
  moves : List RawLichessMove
deriving DecidableEq, Repr

/-- Models `epd.split()`: the whitespace-separated fields of the EPD,
computed on the character list (runs of spaces collapse, empty fields are
dropped, like Python's `str.split()` with no argument). -/
def epdFields (epd : String) : List String :=
  ((epd.toList.foldr
      (fun c acc =>
        if c = ' ' then [] :: acc
        else (c :: acc.headD []) :: acc.tail)
      [[]]).filter (fun w => !w.isEmpty)).map (fun w => String.mk w)

/-- Models `epd.split()[1] == "w"` (every EPD the adapters see has at least
two fields; a missing field reads as the empty string). -/
def epdTurnWhite (epd : String) : Bool := (epdFields epd).getD 1 "" == "w"

/-- Models `ChessGraph.lichess_api_call`: the whole HTTP-and-parse step sits in a
`try`, so a raised error yields `(0, 0, 0, [])`; otherwise the totals are
swapped into the side-to-move perspective. -/
def lichess_api_call (backend : String → Except String LichessResp) (epd : String) :
    Nat × Nat × Nat × List RawLichessMove :=
  match backend epd with
  | .error _ => (0, 0, 0, [])
  | .ok data =>
    if epdTurnWhite epd then (data.white, data.draws, data.black, data.moves)
    else (data.black, data.draws, data.white, data.moves)

/-- The fetch-and-convert part of `get_moves_lichess` (lines 220-233): each
raw entry's counts are read first (outside any try — a malformed entry raises
out of the adapter), the counts are swapped to the side to move, moves with
at most `lichessmingames = 10` games are dropped, and the rest are scored by
`lichess_wdl_to_score` (float-based, abstracted as `wdlScore`). -/
def lichessFresh (backend : String → Except String LichessResp)
    (wdlScore : Nat → Nat → Nat → Int) (epd : String) :
    Except String (List MoveCandidate) :=
  let r := lichess_api_call backend epd
  r.2.2.2.foldlM
    (fun acc rm =>
      match rm with
      | .error e => .error e
      | .ok m =>
        let w := if epdTurnWhite epd then m.white else m.black
        let d := m.draws
        let l := if epdTurnWhite epd then m.black else m.white
        let total := w + d + l
        .ok (if total > 10 then acc ++ [{ score := wdlScore w d l, uci := m.uci }] else acc))
    []

/-- Models `ChessGraph.get_moves_lichess`: same cache policy as chessdb — a
cached empty list is not returned but refetched; a raised per-move extraction
error propagates to the caller and skips the cache write. -/
def get_moves_lichess (backend : String → Except String LichessResp)
    (wdlScore : Nat → Nat → Nat → Int) (enginemaxmoves : Nat) (lichessdb : String)
    (cache : Cache) (epd : String) : Except String (List MoveCandidate × Cache) :=
  let key := CacheKey.lichessKey epd enginemaxmoves lichessdb
  match cacheFind cache key with
  | some stdmoves =>
    if stdmoves.length > 0 then .ok (stdmoves, cache)
    else
      match lichessFresh backend wdlScore epd with
      | .error e => .error e
      | .ok stdmoves => .ok (stdmoves, (key, stdmoves) :: cache)
  | none =>
    match lichessFresh backend wdlScore epd with
    | .error e => .error e
    | .ok stdmoves => .ok (stdmoves, (key, stdmoves) :: cache)

/-- The raw provider back ends and conversion parameters of a `ChessGraph`
instance, abstracting the external world (HTTP, engine process, float math). -/
structure Backends where
  engineBackend : String → Except String (List MoveCandidate)
  chessdbBackend : String → Except String ChessdbResp
  lichessBackend : String → Except String LichessResp
  wdlScore : Nat → Nat → Nat → Int

/-- The constructor arguments of `ChessGraph` that the adapters read. -/
structure GConfig where
  engine : String
  enginedepth : Nat
  enginemaxmoves : Nat
  lichessdb : String

/-- Models `ChessGraph.get_moves`: dispatch on `self.source` (the
`assert False` branch is unreachable because `argparse` restricts `--source`
to the three `Source` values).  The chessdb and lichess adapters handle
transport-level failures internally but still raise on a malformed move entry
(whose extraction is outside their try blocks); the engine adapter propagates
every `Except.error`. -/
def get_moves (src : Source) (B : Backends) (cfg : GConfig) (cache : Cache)
    (epd : String) : Except String (List MoveCandidate × Cache) :=
  match src with
  | .chessdb => get_moves_chessdb B.chessdbBackend cache epd
  | .engine =>
    get_moves_engine B.engineBackend cfg.engine cfg.enginedepth cfg.enginemaxmoves cache epd
  | .lichess =>
    get_moves_lichess B.lichessBackend B.wdlScore cfg.enginemaxmoves cfg.lichessdb cache epd

/-! Concrete fixtures used by the scenario theorem and the witnesses. -/

/-- Chess-rules stub: every position is non-terminal, white to move; the
child EPD is parent ++ ":" ++ uci. -/
def rules7 : ChessRules where
  childEpd := fun f u => f ++ ":" ++ u
  san := fun _ u => u
  legalMovesCount := fun _ => 20
  isCheckmate := fun _ => false
  isStalemate := fun _ => false
  inCheck := fun _ => false
  turn := fun _ => true

/-- Stub provider of the spec's scenario: scores 30, 20, -5 at the root. -/
def provider7 : Provider := fun epd =>
  if epd == "root" then .ok [⟨30, "e2e4"⟩, ⟨20, "d2d4"⟩, ⟨-5, "a2a3"⟩]
  else .ok []

/-- Chess-rules stub where every position is checkmate. -/
def rulesMate : ChessRules where
  childEpd := fun f u => f ++ ":" ++ u
  san := fun _ u => u
  legalMovesCount := fun _ => 0
  isCheckmate := fun _ => true
  isStalemate := fun _ => false
  inCheck := fun _ => true
  turn := fun _ => true

/-- Provider with no data. -/
def providerEmpty : Provider := fun _ => .ok []

/-- Provider whose every candidate scores below alpha = 0. -/
def providerLow : Provider := fun _ => .ok [⟨-7, "a2a3"⟩, ⟨-9, "h2h4"⟩]

/-- Backends where every network/process interaction raises. -/
def failBackends : Backends where
  engineBackend := fun _ => .error "engine I/O failure"
  chessdbBackend := fun _ => .error "connection timeout"
  lichessBackend := fun _ => .error "connection timeout"
  wdlScore := fun _ _ _ => 0

/-- Default-like configuration. -/
def cfg0 : GConfig := ⟨"stockfish", 20, 10, "masters"⟩

/-- The provider induced by `get_moves` with `--source engine`, the failing
engine backend and a fresh cache. -/
def engineProviderFail : Provider := fun epd =>
  match get_moves Source.engine failBackends cfg0 [] epd with
  | .ok (ms, _) => .ok ms
  | .error e => .error e

/-- chessdb backend answering one well-formed scored move. -/
def chessdbB1 : String → Except String ChessdbResp :=
  fun _ => .ok ⟨"ok", [.ok ⟨44, "e2e4"⟩]⟩

/-- lichess backend answering one well-formed, well-sampled move. -/
def lichessB1 : String → Except String LichessResp :=
  fun _ => .ok ⟨100, 50, 30, [.ok ⟨"e2e4", 60, 30, 10⟩]⟩

/-- Backends whose HTTP layer succeeds (status ok, envelope decodes) but whose
move entries are malformed, so the per-move field extraction raises. -/
def malformedBackends : Backends where
  engineBackend := fun _ => .ok []
  chessdbBackend := fun _ => .ok ⟨"ok", [.error "KeyError: score"]⟩
  lichessBackend := fun _ => .ok ⟨100, 50, 30, [.error "KeyError: white"]⟩
  wdlScore := fun _ _ _ => 0

/-- The provider induced by `get_moves` with `--source chessdb`, the
malformed-entry backend and a fresh cache. -/
def chessdbProviderMalformed : Provider := fun epd =>
  match get_moves Source.chessdb malformedBackends cfg0 [] epd with
  | .ok (ms, _) => .ok ms
  | .error e => .error e

/-- A cache holding an empty entry for each adapter's key at position `"p1"`. -/
def cacheEmptyEntries : Cache :=
  [(CacheKey.chessdbKey "p1", []), (CacheKey.lichessKey "p1" 10 "masters", []),
   (CacheKey.engineKey "p1" "stockfish" 20 10, [])]

/-- The function `log2fuel` computes `Nat.log 2` when given enough fuel. -/
theorem log2fuel_eq_log : ∀ f n, n ≤ f → log2fuel f n = Nat.log 2 n := by
  intro f
  induction f with
  | zero =>
    intro n hn
    have : n = 0 := by omega
    subst this
    simp [log2fuel]
  | succ f ih =>
    intro n hn
    rw [log2fuel]
    by_cases h2 : 2 ≤ n
    · rw [if_pos h2, ih (n / 2) (by omega), Nat.log_of_one_lt_of_le (by norm_num) h2]
    · rw [if_neg h2, Nat.log_of_lt (by omega)]

theorem decayPly_eq_log (k : Nat) : decayPly k = Nat.log 2 (8 * k * k) / 2 := by
  rw [decayPly, log2fuel_eq_log _ _ le_rfl]

/-- The decay loses at least one ply. -/
theorem decayPly_pos (k : Nat) (hk : 1 ≤ k) : 1 ≤ decayPly k := by
  rw [decayPly_eq_log]
  have h8 : Nat.log 2 8 = 3 :=
    Nat.log_eq_of_pow_le_of_lt_pow (by norm_num) (by norm_num)
  have hm : Nat.log 2 8 ≤ Nat.log 2 (8 * k * k) :=
    Nat.log_mono_right (by nlinarith)
  omega

/-- The decay `decayPly k` is exactly `⌊1.5 + log₂ k⌋` for `k ≥ 1`. -/
theorem decayPly_eq_floor (k : Nat) (hk : 1 ≤ k) :
    (decayPly k : Int) = ⌊(1.5 : ℝ) + Real.logb 2 (k : ℝ)⌋ := by
  have hk0 : (0:ℝ) < (k : ℝ) := by exact_mod_cast hk
  have hkne : (k : ℝ) ≠ 0 := ne_of_gt hk0
  set N : Nat := 8 * k * k with hN
  have hNcast : ((N : ℕ) : ℝ) = 8 * (k : ℝ) * (k : ℝ) := by
    rw [hN]; push_cast; ring
  have hlog8 : Real.logb 2 (8 : ℝ) = 3 := by
    have h83 : (8 : ℝ) = (2 : ℝ) ^ (3 : ℕ) := by norm_num
    rw [h83, Real.logb_pow, Real.logb_self_eq_one (by norm_num)]
    norm_num
  have hlogN : Real.logb 2 ((N : ℕ) : ℝ) = 3 + 2 * Real.logb 2 (k : ℝ) := by
    rw [hNcast, Real.logb_mul (by positivity) hkne, Real.logb_mul (by norm_num) hkne, hlog8]
    ring
  have hx : (1.5 : ℝ) + Real.logb 2 (k : ℝ) = Real.logb 2 ((N : ℕ) : ℝ) / 2 := by
    rw [hlogN]; ring
  have hxnn : 0 ≤ Real.logb 2 ((N : ℕ) : ℝ) := by
    apply Real.logb_nonneg (by norm_num)
    have h1N : (1:ℕ) ≤ N := by rw [hN]; nlinarith
    exact_mod_cast h1N
  rw [hx]
  have h2 : (2 : ℝ) = ((2 : ℕ) : ℝ) := by norm_num
  rw [h2, ← Int.natCast_floor_eq_floor (by positivity), Nat.floor_div_nat, ← Int.floor_toNat,
    Real.floor_logb_natCast (by positivity), Int.log_natCast]
  simp [decayPly_eq_log]

theorem mem_insertDesc {m x : MoveCandidate} : ∀ {ms : List MoveCandidate},
    x ∈ insertDesc m ms ↔ x = m ∨ x ∈ ms := by
  intro ms
  induction ms with
  | nil => simp [insertDesc]
  | cons y ys ih =>
    rw [insertDesc]
    by_cases h : y.score ≤ m.score
    · rw [if_pos h]; simp [List.mem_cons]
    · rw [if_neg h]; simp only [List.mem_cons, ih]; tauto

theorem mem_sortDesc {x : MoveCandidate} : ∀ {ms : List MoveCandidate},
    x ∈ sortDesc ms ↔ x ∈ ms := by
  intro ms
  induction ms with
  | nil => simp [sortDesc]
  | cons m rest ih => rw [sortDesc]; simp [mem_insertDesc, ih]

theorem sortDesc_sorted : ∀ ms : List MoveCandidate,
    (sortDesc ms).Pairwise (fun a b => b.score ≤ a.score) := by
  have hins : ∀ (m : MoveCandidate) (l : List MoveCandidate),
      l.Pairwise (fun a b => b.score ≤ a.score) →
      (insertDesc m l).Pairwise (fun a b => b.score ≤ a.score) := by
    intro m l
    induction l with
    | nil => intro _; simp [insertDesc]
    | cons y ys ih =>
      intro hp
      rw [insertDesc]
      rcases List.pairwise_cons.mp hp with ⟨hy, hys⟩
      by_cases h : y.score ≤ m.score
      · rw [if_pos h]
        refine List.pairwise_cons.mpr ⟨?_, hp⟩
        intro b hb
        rcases List.mem_cons.mp hb with rfl | hb
        · exact h
        · exact le_trans (hy b hb) h
      · rw [if_neg h]
        refine List.pairwise_cons.mpr ⟨?_, ih hys⟩
        intro b hb
        rcases mem_insertDesc.mp hb with rfl | hb
        · omega
        · exact hy b hb
  intro ms
  induction ms with
  | nil => simp [sortDesc]
  | cons m rest ih => rw [sortDesc]; exact hins m _ ih

theorem sortDesc_eq_nil_iff {ms : List MoveCandidate} : sortDesc ms = [] ↔ ms = [] := by
  cases ms with
  | nil => simp [sortDesc]
  | cons m rest =>
    simp only [sortDesc]
    constructor
    · intro h
      have : m ∈ insertDesc m (sortDesc rest) := mem_insertDesc.mpr (Or.inl rfl)
      rw [h] at this
      simp at this
    · intro h; simp at h

theorem expandLoop_st (R : ChessRules) (depth alpha beta : Int) (pvNode : Bool)
    (ply : Nat) (epdfrom : String) (turn : Bool) :
    ∀ (ms : List MoveCandidate) (bs : Option Int) (ef ed : Nat) (tt : String)
      (pd : List SubmitEvent) (tr : List TraceEntry) (st : GState),
      ∃ Δ, (expandLoop R depth alpha beta pvNode ply epdfrom turn ms bs ef ed tt pd tr st).st
            = { st with edges := st.edges ++ Δ } ∧ ∀ e ∈ Δ, alpha < e.score := by
  intro ms
  induction ms with
  | nil =>
    intro bs ef ed tt pd tr st
    exact ⟨[], by simp [expandLoop], by simp⟩
  | cons m rest ih =>
    intro bs ef ed tt pd tr st
    simp only [expandLoop]
    set best := (match bs with | none => m.score | some b => b) with hbest
    by_cases hα : m.score ≤ alpha
    · rw [if_pos hα]
      exact ⟨[], by simp, by simp⟩
    · rw [if_neg hα]
      by_cases hd : 0 ≤ newDepthFor depth m.score best (ef + 1)
      · rw [if_pos hd]
        obtain ⟨Δ, h1, h2⟩ := ih (some best) (ef + 1) (ed + 1) _ _ _
          (write_edge st ⟨epdfrom, R.childEpd epdfrom m.uci, R.san epdfrom m.uci, m.uci,
            turn, m.score, pvNode && (m.score == best), !(m.score == best)⟩)
        refine ⟨⟨epdfrom, R.childEpd epdfrom m.uci, R.san epdfrom m.uci, m.uci,
            turn, m.score, pvNode && (m.score == best), !(m.score == best)⟩ :: Δ, ?_, ?_⟩
        · rw [h1]; simp [write_edge]
        · intro e he
          rcases List.mem_cons.mp he with rfl | he
          · exact lt_of_not_le hα
          · exact h2 e he
      · rw [if_neg hd]
        obtain ⟨Δ, h1, h2⟩ := ih (some best) (ef + 1) ed _ _ _ st
        exact ⟨Δ, h1, h2⟩

theorem newDepthFor_lt (depth score best : Int) (ef : Nat) :
    newDepthFor depth score best (ef + 1) < depth := by
  rw [newDepthFor]
  by_cases h : score == best
  · rw [if_pos h]; omega
  · rw [if_neg h]
    have := decayPly_pos (ef + 1) (by omega)
    omega

theorem expandLoop_pending (R : ChessRules) (depth alpha beta : Int) (pvNode : Bool)
    (ply : Nat) (epdfrom : String) (turn : Bool) :
    ∀ (ms : List MoveCandidate) (bs : Option Int) (ef ed : Nat) (tt : String)
      (pd : List SubmitEvent) (tr : List TraceEntry) (st : GState),
      ∀ s ∈ (expandLoop R depth alpha beta pvNode ply epdfrom turn ms bs ef ed tt pd tr st).pending,
        s ∈ pd ∨ (s.poolIndex = depth ∧ s.alpha = -beta ∧ s.beta = -alpha ∧
          s.pv = (pvNode && s.isBest) ∧ s.ply = ply + 1 ∧ 0 ≤ s.depth ∧ s.depth < depth) := by
  intro ms
  induction ms with
  | nil =>
    intro bs ef ed tt pd tr st s hs
    simp only [expandLoop] at hs
    exact Or.inl hs
  | cons m rest ih =>
    intro bs ef ed tt pd tr st s hs
    simp only [expandLoop] at hs
    set best := (match bs with | none => m.score | some b => b) with hbest
    by_cases hα : m.score ≤ alpha
    · rw [if_pos hα] at hs
      exact Or.inl hs
    · rw [if_neg hα] at hs
      by_cases hd : 0 ≤ newDepthFor depth m.score best (ef + 1)
      · rw [if_pos hd] at hs
        by_cases hv : R.childEpd epdfrom m.uci ∈ st.visited
        · rw [if_pos hv] at hs
          exact ih _ _ _ _ _ _ _ s hs
        · rw [if_neg hv] at hs
          rcases ih _ _ _ _ _ _ _ s hs with hmem | hprops
          · rcases List.mem_append.mp hmem with hmem | hmem
            · exact Or.inl hmem
            · right
              rcases List.mem_singleton.mp hmem with rfl
              refine ⟨rfl, rfl, rfl, rfl, rfl, hd, newDepthFor_lt depth m.score best ef⟩
          · exact Or.inr hprops
      · rw [if_neg hd] at hs
        exact ih _ _ _ _ _ _ _ s hs

theorem expandLoop_trace_acc (R : ChessRules) (depth alpha beta : Int) (pvNode : Bool)
    (ply : Nat) (epdfrom : String) (turn : Bool) :
    ∀ (ms : List MoveCandidate) (bs : Option Int) (ef ed : Nat) (tt : String)
      (pd : List SubmitEvent) (tr : List TraceEntry) (st : GState),
      (expandLoop R depth alpha beta pvNode ply epdfrom turn ms bs ef ed tt pd tr st).trace
        = tr ++ (expandLoop R depth alpha beta pvNode ply epdfrom turn ms bs ef ed tt pd [] st).trace := by
  intro ms
  induction ms with
  | nil =>
    intro bs ef ed tt pd tr st
    simp [expandLoop]
  | cons m rest ih =>
    intro bs ef ed tt pd tr st
    simp only [expandLoop]
    set best := (match bs with | none => m.score | some b => b) with hbest
    by_cases hα : m.score ≤ alpha
    · rw [if_pos hα, if_pos hα]; simp
    · rw [if_neg hα, if_neg hα]
      by_cases hd : 0 ≤ newDepthFor depth m.score best (ef + 1)
      · rw [if_pos hd, if_pos hd]
        rw [ih _ _ _ _ _ (tr ++ [_]) _, ih _ _ _ _ _ ([] ++ [_]) _]
        simp
      · rw [if_neg hd, if_neg hd]
        rw [ih _ _ _ _ _ (tr ++ [_]) _, ih _ _ _ _ _ ([] ++ [_]) _]
        simp

theorem expandLoop_trace_scores (R : ChessRules) (depth alpha beta : Int) (pvNode : Bool)
    (ply : Nat) (epdfrom : String) (turn : Bool) :
    ∀ (ms : List MoveCandidate) (bs : Option Int) (ef ed : Nat) (tt : String)
      (pd : List SubmitEvent) (st : GState),
      ((expandLoop R depth alpha beta pvNode ply epdfrom turn ms bs ef ed tt pd [] st).trace).map
          (fun t => t.score)
        = (ms.map (fun m => m.score)).takeWhile (fun s => decide (alpha < s)) := by
  intro ms
  induction ms with
  | nil =>
    intro bs ef ed tt pd st
    simp [expandLoop]
  | cons m rest ih =>
    intro bs ef ed tt pd st
    simp only [expandLoop, List.map_cons]
    set best := (match bs with | none => m.score | some b => b) with hbest
    by_cases hα : m.score ≤ alpha
    · rw [if_pos hα]
      rw [List.takeWhile_cons_of_neg (by simp; omega)]
      simp
    · rw [if_neg hα]
      rw [List.takeWhile_cons_of_pos (by simp; omega)]
      by_cases hd : 0 ≤ newDepthFor depth m.score best (ef + 1)
      · rw [if_pos hd]
        rw [expandLoop_trace_acc]
        simp only [List.map_append]
        rw [ih]
        simp
      · rw [if_neg hd]
        rw [expandLoop_trace_acc]
        simp only [List.map_append]
        rw [ih]
        simp

theorem expandLoop_trace_formula (R : ChessRules) (depth alpha beta : Int) (pvNode : Bool)
    (ply : Nat) (epdfrom : String) (turn : Bool) :
    ∀ (ms : List MoveCandidate) (bs : Option Int) (ef ed : Nat) (tt : String)
      (pd : List SubmitEvent) (tr : List TraceEntry) (st : GState),
      ∀ t ∈ (expandLoop R depth alpha beta pvNode ply epdfrom turn ms bs ef ed tt pd tr st).trace,
        t ∈ tr ∨ (t.newDepth = (if t.isBest then depth - 1 else depth - (decayPly t.rank : Int))
          ∧ alpha < t.score ∧ 1 ≤ t.rank) := by
  intro ms
  induction ms with
  | nil =>
    intro bs ef ed tt pd tr st t ht
    simp only [expandLoop] at ht
    exact Or.inl ht
  | cons m rest ih =>
    intro bs ef ed tt pd tr st t ht
    simp only [expandLoop] at ht
    set best := (match bs with | none => m.score | some b => b) with hbest
    by_cases hα : m.score ≤ alpha
    · rw [if_pos hα] at ht
      exact Or.inl ht
    · rw [if_neg hα] at ht
      have hentry : ∀ h : t = (⟨m.score, m.score == best, ef + 1,
          newDepthFor depth m.score best (ef + 1)⟩ : TraceEntry),
          t.newDepth = (if t.isBest then depth - 1 else depth - (decayPly t.rank : Int))
            ∧ alpha < t.score ∧ 1 ≤ t.rank := by
        intro h
        subst h
        exact ⟨rfl, lt_of_not_le hα, Nat.succ_le_succ (Nat.zero_le ef)⟩
      by_cases hd : 0 ≤ newDepthFor depth m.score best (ef + 1)
      · rw [if_pos hd] at ht
        rcases ih _ _ _ _ _ _ _ t ht with hmem | hprops
        · rcases List.mem_append.mp hmem with hmem | hmem
          · exact Or.inl hmem
          · exact Or.inr (hentry (List.mem_singleton.mp hmem))
        · exact Or.inr hprops
      · rw [if_neg hd] at ht
        rcases ih _ _ _ _ _ _ _ t ht with hmem | hprops
        · rcases List.mem_append.mp hmem with hmem | hmem
          · exact Or.inl hmem
          · exact Or.inr (hentry (List.mem_singleton.mp hmem))
        · exact Or.inr hprops

theorem expandLoop_trace_rank (R : ChessRules) (depth alpha beta : Int) (pvNode : Bool)
    (ply : Nat) (epdfrom : String) (turn : Bool) :
    ∀ (ms : List MoveCandidate) (bs : Option Int) (ef ed : Nat) (tt : String)
      (pd : List SubmitEvent) (st : GState) (i : Nat) (t : TraceEntry),
      ((expandLoop R depth alpha beta pvNode ply epdfrom turn ms bs ef ed tt pd [] st).trace)[i]?
          = some t → t.rank = ef + i + 1 := by
  intro ms
  induction ms with
  | nil =>
    intro bs ef ed tt pd st i t ht
    simp [expandLoop] at ht
  | cons m rest ih =>
    intro bs ef ed tt pd st i t ht
    simp only [expandLoop] at ht
    set best := (match bs with | none => m.score | some b => b) with hbest
    by_cases hα : m.score ≤ alpha
    · rw [if_pos hα] at ht
      simp at ht
    · rw [if_neg hα] at ht
      have hstep : ∀ (pd' : List SubmitEvent) (ed' : Nat) (tt' : String) (st' : GState),
          ((expandLoop R depth alpha beta pvNode ply epdfrom turn rest (some best) (ef + 1) ed'
              tt' pd' [⟨m.score, m.score == best, ef + 1,
                newDepthFor depth m.score best (ef + 1)⟩] st').trace)[i]? = some t →
          t.rank = ef + i + 1 := by
        intro pd' ed' tt' st' h
        rw [expandLoop_trace_acc] at h
        cases i with
        | zero =>
          simp at h
          rw [← h]
        | succ i =>
          simp only [List.singleton_append, List.getElem?_cons_succ] at h
          have := ih (some best) (ef + 1) ed' tt' pd' st' i t h
          omega
      by_cases hd : 0 ≤ newDepthFor depth m.score best (ef + 1)
      · rw [if_pos hd] at ht
        rw [expandLoop_trace_acc] at ht
        simp only [List.nil_append] at ht
        rw [← expandLoop_trace_acc] at ht
        exact hstep _ _ _ _ ht
      · rw [if_neg hd] at ht
        rw [expandLoop_trace_acc] at ht
        simp only [List.nil_append] at ht
        rw [← expandLoop_trace_acc] at ht
        exact hstep _ _ _ _ ht

theorem expandLoop_trace_head (R : ChessRules) (depth alpha beta : Int) (pvNode : Bool)
    (ply : Nat) (epdfrom : String) (turn : Bool)
    (ms : List MoveCandidate) (ed : Nat) (tt : String)
    (pd : List SubmitEvent) (st : GState) (t : TraceEntry) (ts : List TraceEntry)
    (h : (expandLoop R depth alpha beta pvNode ply epdfrom turn ms none 0 ed tt pd [] st).trace
        = t :: ts) :
    t.isBest = true ∧ t.newDepth = depth - 1 := by
  cases ms with
  | nil => simp [expandLoop] at h
  | cons m rest =>
    simp only [expandLoop] at h
    by_cases hα : m.score ≤ alpha
    · rw [if_pos hα] at h
      simp at h
    · rw [if_neg hα] at h
      have hentry : t = (⟨m.score, m.score == m.score, 0 + 1,
          newDepthFor depth m.score m.score (0 + 1)⟩ : TraceEntry) → 
          t.isBest = true ∧ t.newDepth = depth - 1 := by
        intro he
        subst he
        refine ⟨by simp, ?_⟩
        show newDepthFor depth m.score m.score (0 + 1) = depth - 1
        rw [newDepthFor, if_pos (by simp)]
      by_cases hd : 0 ≤ newDepthFor depth m.score m.score (0 + 1)
      · rw [if_pos hd] at h
        rw [expandLoop_trace_acc] at h
        simp only [List.nil_append, List.singleton_append] at h
        exact hentry (List.head_eq_of_cons_eq h.symm)
      · rw [if_neg hd] at h
        rw [expandLoop_trace_acc] at h
        simp only [List.nil_append, List.singleton_append] at h
        exact hentry (List.head_eq_of_cons_eq h.symm)

theorem Evolves.refl (st : GState) : Evolves st st :=
  ⟨fun _ h => h, fun _ h => h, fun _ h => h, fun _ h => Or.inl h, fun _ h => Or.inl h,
   fun _ h => Or.inl h, fun h => h⟩

theorem Evolves.trans {a b c : GState} (h1 : Evolves a b) (h2 : Evolves b c) : Evolves a c := by
  obtain ⟨v1, n1, f1, fn1, ff1, s1, i1⟩ := h1
  obtain ⟨v2, n2, f2, fn2, ff2, s2, i2⟩ := h2
  refine ⟨fun x h => v2 (v1 h), fun nd h => n2 nd (n1 nd h), fun f h => f2 f (f1 f h),
    ?_, ?_, ?_, fun h => i2 (i1 h)⟩
  · intro nd h
    rcases fn2 nd h with h' | h'
    · exact fn1 nd h'
    · exact Or.inr (fun hc => h' (v1 hc))
  · intro f h
    rcases ff2 f h with h' | h'
    · exact ff1 f h'
    · exact Or.inr (fun hc => h' (v1 hc))
  · intro s h
    rcases s2 s h with h' | h'
    · exact s1 s h'
    · exact Or.inr h'

theorem fetchMoves_moves {R : ChessRules} {P : Provider} {epd : String} {st : GState}
    {ms : List MoveCandidate} {b0 : Option Int} {st' : GState}
    (h : fetchMoves R P epd st = .moves ms b0 st') :
    st' = st ∨ st' = { st with fetches := st.fetches ++ [epd] } := by
  rw [fetchMoves] at h
  by_cases h1 : R.isCheckmate epd
  · rw [if_pos h1] at h
    cases h
    exact Or.inl rfl
  · rw [if_neg h1] at h
    by_cases h2 : R.isStalemate epd
    · rw [if_pos h2] at h
      cases h
      exact Or.inl rfl
    · rw [if_neg h2] at h
      cases hp : P epd with
      | ok l => rw [hp] at h; cases h; exact Or.inr rfl
      | error e => rw [hp] at h; cases h

theorem fetchMoves_raised {R : ChessRules} {P : Provider} {epd : String} {st : GState}
    {e : String} {st' : GState}
    (h : fetchMoves R P epd st = .raised e st') :
    st' = { st with fetches := st.fetches ++ [epd] } := by
  rw [fetchMoves] at h
  by_cases h1 : R.isCheckmate epd
  · rw [if_pos h1] at h; cases h
  · rw [if_neg h1] at h
    by_cases h2 : R.isStalemate epd
    · rw [if_pos h2] at h; cases h
    · rw [if_neg h2] at h
      cases hp : P epd with
      | ok l => rw [hp] at h; cases h
      | error e' => rw [hp] at h; cases h; rfl

theorem nodeFor_epd (be : Nat) (pv : Bool) (ply : Nat) (epdfrom : String)
    (turn : Bool) (lc : Nat) (r : LoopResult) :
    (nodeFor be pv ply epdfrom turn lc r).epd = epdfrom := rfl

theorem nodeFor_score (be : Nat) (pv : Bool) (ply : Nat) (epdfrom : String)
    (turn : Bool) (lc : Nat) (r : LoopResult) :
    (nodeFor be pv ply epdfrom turn lc r).score = r.bestscore := rfl

theorem evolves_mark (st : GState) (epd : String) :
    Evolves st { st with visited := epd :: st.visited } := by
  refine ⟨fun x h => List.mem_cons_of_mem _ h, fun nd h => h, fun f h => h,
    fun nd h => Or.inl h, fun f h => Or.inl h, fun s h => Or.inl h, ?_⟩
  intro ⟨h1, h2, h3, h4⟩
  exact ⟨h1, fun nd h => List.mem_cons_of_mem _ (h2 nd h), h3,
    fun f h => List.mem_cons_of_mem _ (h4 f h)⟩

theorem evolves_mark_fetch {st : GState} {epd : String} (hv : epd ∉ st.visited) :
    Evolves st { st with visited := epd :: st.visited, fetches := st.fetches ++ [epd] } := by
  refine ⟨fun x h => List.mem_cons_of_mem _ h, fun nd h => h,
    fun f h => List.mem_append_left _ h,
    fun nd h => Or.inl h, ?_, fun s h => Or.inl h, ?_⟩
  · intro f h
    rcases List.mem_append.mp h with h | h
    · exact Or.inl h
    · rcases List.mem_singleton.mp h with rfl
      exact Or.inr hv
  · intro ⟨h1, h2, h3, h4⟩
    refine ⟨h1, fun nd h => List.mem_cons_of_mem _ (h2 nd h), ?_, ?_⟩
    · rw [List.nodup_append]
      exact ⟨h3, List.nodup_singleton _,
        fun f hf hf1 => hv (by rcases List.mem_singleton.mp hf1 with rfl; exact h4 f hf)⟩
    · intro f h
      rcases List.mem_append.mp h with h | h
      · exact List.mem_cons_of_mem _ (h4 f h)
      · rcases List.mem_singleton.mp h with rfl
        exact List.mem_cons_self _ _

theorem evolves_edges (st : GState) (Δ : List Edge) :
    Evolves st { st with edges := st.edges ++ Δ } :=
  ⟨fun _ h => h, fun _ h => h, fun _ h => h, fun _ h => Or.inl h, fun _ h => Or.inl h,
   fun _ h => Or.inl h, fun h => h⟩

/-- Main induction: a `recurseFuel` task transforms the shared state only in
the ways allowed by `Evolves`. -/
theorem recurseFuel_evolves (R : ChessRules) (P : Provider) (be : Nat) :
    ∀ (fuel : Nat) (depth alpha beta : Int) (pv : Bool) (ply : Nat) (epd : String) (st : GState),
      Evolves st (recurseFuel R P be fuel depth alpha beta pv ply epd st).1 := by
  intro fuel
  induction fuel with
  | zero =>
    intro depth alpha beta pv ply epd st
    exact Evolves.refl st
  | succ fuel ih =>
    intro depth alpha beta pv ply epd st
    have hfold : ∀ (subs : List SubmitEvent) (st0 : GState),
        Evolves st0 (subs.foldl (fun acc s =>
          (recurseFuel R P be fuel s.depth s.alpha s.beta s.pv s.ply s.epd acc).1) st0) := by
      intro subs
      induction subs with
      | nil => intro st0; exact Evolves.refl st0
      | cons s rest ihs =>
        intro st0
        rw [List.foldl_cons]
        exact Evolves.trans (ih s.depth s.alpha s.beta s.pv s.ply s.epd st0) (ihs _)
    simp only [recurseFuel, taskBody]
    by_cases hv : epd ∈ st.visited
    · rw [if_pos hv]
      exact Evolves.refl st
    · rw [if_neg hv]
      cases hfm : fetchMoves R P epd { st with visited := epd :: st.visited } with
      | raised e st2 =>
        have h2 := fetchMoves_raised hfm
        subst h2
        exact evolves_mark_fetch hv
      | moves moves b0 st2 =>
        have hst2 := fetchMoves_moves hfm
        have E02 : Evolves st st2 := by
          rcases hst2 with rfl | rfl
          · exact evolves_mark st epd
          · exact evolves_mark_fetch hv
        have hvis2 : epd ∈ st2.visited := by
          rcases hst2 with rfl | rfl <;> exact List.mem_cons_self _ _
        have hnodes2 : st2.nodes = st.nodes := by
          rcases hst2 with rfl | rfl <;> rfl
        -- name the loop result and the intermediate states
        set r := expandLoop R depth alpha beta pv ply epd (R.turn epd)
          (sortDesc moves) b0 0 0 (epd ++ "\n") [] [] st2 with hr
        set st3 : GState := { r.st with submits := r.st.submits ++ r.pending } with hst3
        set st4 := r.pending.foldl (fun acc s =>
          (recurseFuel R P be fuel s.depth s.alpha s.beta s.pv s.ply s.epd acc).1) st3 with hst4
        obtain ⟨Δ, hΔ, hΔgt⟩ := expandLoop_st R depth alpha beta pv ply epd (R.turn epd)
          (sortDesc moves) b0 0 0 (epd ++ "\n") [] [] st2
        have E2 : Evolves st2 r.st := by
          rw [← hr] at hΔ
          rw [hΔ]
          exact evolves_edges st2 Δ
        have E3 : Evolves r.st st3 := by
          refine ⟨fun x h => h, fun nd h => h, fun f h => h,
            fun nd h => Or.inl h, fun f h => Or.inl h, ?_, fun h => h⟩
          intro s h
          rcases List.mem_append.mp h with h | h
          · exact Or.inl h
          · rcases expandLoop_pending R depth alpha beta pv ply epd (R.turn epd)
              (sortDesc moves) b0 0 0 (epd ++ "\n") [] [] st2 s (by rw [← hr] at *; exact h)
              with h' | h'
            · simp at h'
            · obtain ⟨hpool, _, _, _, _, hd0, hdlt⟩ := h'
              exact Or.inr ⟨hd0, by omega⟩
        have E4 : Evolves st3 st4 := hfold r.pending st3
        have E24 : Evolves st2 st4 := Evolves.trans (Evolves.trans E2 E3) E4
        -- final assembly: Evolves st (write_node st4 node)
        refine ⟨?_, ?_, ?_, ?_, ?_, ?_, ?_⟩
        · exact fun x h => E24.1 (E02.1 h)
        · exact fun nd h => List.mem_append_left _ (E24.2.1 nd (E02.2.1 nd h))
        · exact fun f h => E24.2.2.1 f (E02.2.2.1 f h)
        · intro nd h
          rcases List.mem_append.mp h with h | h
          · rcases E24.2.2.2.1 nd h with h' | h'
            · rcases E02.2.2.2.1 nd h' with h'' | h''
              · exact Or.inl h''
              · exact Or.inr h''
            · exact Or.inr (fun hc => h' (E02.1 hc))
          · rcases List.mem_singleton.mp h with rfl
            rw [nodeFor_epd]
            exact Or.inr hv
        · intro f h
          rcases E24.2.2.2.2.1 f h with h' | h'
          · rcases E02.2.2.2.2.1 f h' with h'' | h''
            · exact Or.inl h''
            · exact Or.inr h''
          · exact Or.inr (fun hc => h' (E02.1 hc))
        · intro s h
          rcases E24.2.2.2.2.2.1 s h with h' | h'
          · rcases E02.2.2.2.2.2.1 s h' with h'' | h''
            · exact Or.inl h''
            · exact Or.inr h''
          · exact Or.inr h'
        · intro hinv
          have i2 : StInv st2 := E02.2.2.2.2.2.2 hinv
          have i4 : StInv st4 := E24.2.2.2.2.2.2 i2
          obtain ⟨n4, nv4, f4, fv4⟩ := i4
          refine ⟨?_, ?_, f4, fun f hf => fv4 f hf⟩
          · show ((st4.nodes ++ [nodeFor be pv ply epd (R.turn epd) (R.legalMovesCount epd) r]).map
              (fun nd => nd.epd)).Nodup
            rw [List.map_append, List.nodup_append]
            refine ⟨n4, by simp, ?_⟩
            intro x hx hx1
            simp only [List.map_cons, List.map_nil, List.mem_singleton, nodeFor_epd] at hx1
            subst hx1
            rcases List.mem_map.mp hx with ⟨nd, hnd, hnd2⟩
            rcases E24.2.2.2.1 nd hnd with h' | h'
            · rw [hnodes2] at h'
              have := hinv.2.1 nd h'
              rw [hnd2] at this
              exact hv this
            · rw [hnd2] at h'
              exact h' hvis2
          · intro nd h
            rcases List.mem_append.mp h with h | h
            · exact nv4 nd h
            · rcases List.mem_singleton.mp h with rfl
              rw [nodeFor_epd]
              exact E24.1 hvis2

/-- With a provider that never raises, `recurseFuel` never reports an escaping
exception (child futures' exceptions are never retrieved by the source, so
only the task's own score fetch can raise). -/
theorem recurseFuel_ok (R : ChessRules) (P : Provider) (be : Nat)
    (htot : ∀ e, ∃ ms, P e = Except.ok ms) :
    ∀ (fuel : Nat) (depth alpha beta : Int) (pv : Bool) (ply : Nat) (epd : String) (st : GState),
      (recurseFuel R P be fuel depth alpha beta pv ply epd st).2 = none := by
  intro fuel depth alpha beta pv ply epd st
  cases fuel with
  | zero => rfl
  | succ fuel =>
    simp only [recurseFuel, taskBody]
    by_cases hv : epd ∈ st.visited
    · rw [if_pos hv]
    · rw [if_neg hv]
      cases hfm : fetchMoves R P epd { st with visited := epd :: st.visited } with
      | raised e st2 =>
        exfalso
        rw [fetchMoves] at hfm
        by_cases h1 : R.isCheckmate epd
        · rw [if_pos h1] at hfm; cases hfm
        · rw [if_neg h1] at hfm
          by_cases h2 : R.isStalemate epd
          · rw [if_pos h2] at hfm; cases hfm
          · rw [if_neg h2] at hfm
            obtain ⟨ms, hms⟩ := htot epd
            rw [hms] at hfm
            cases hfm
      | moves moves b0 st2 => rfl

/-- Terminal positions: with no legal moves, `recurse` emits exactly one node
(score `-30000` in check / `0` otherwise), no edge, no submit, no fetch. -/
theorem recurse_terminal (R : ChessRules) (P : Provider) (be : Nat)
    (depth alpha beta : Int) (pv : Bool) (ply : Nat) (epd : String) (st : GState)
    (hWF : R.WF) (hlc : R.legalMovesCount epd = 0) (hv : epd ∉ st.visited) :
    ∃ node : Node,
      recurse R P be depth alpha beta pv ply epd st =
        ({ st with visited := epd :: st.visited, nodes := st.nodes ++ [node] }, none) ∧
      node.epd = epd ∧ node.score = some (if R.inCheck epd then -30000 else 0) := by
  have h1 : R.isCheckmate epd = R.inCheck epd := by
    rw [(hWF epd).1, hlc]
    simp
  have h2 : R.isStalemate epd = !R.inCheck epd := by
    rw [(hWF epd).2, hlc]
    simp
  rw [recurse]
  simp only [recurseFuel, taskBody]
  rw [if_neg hv]
  rw [fetchMoves, h1, h2]
  cases hc : R.inCheck epd with
  | true =>
    rw [if_pos rfl]
    dsimp only
    simp only [expandLoop]
    refine ⟨nodeFor be pv ply epd (R.turn epd) (R.legalMovesCount epd)
      ⟨some (-30000), 0, 0, epd ++ "\n", [], [], { st with visited := epd :: st.visited }⟩,
      ?_, rfl, by simp [nodeFor_score]⟩
    simp [write_node]
  | false =>
    rw [if_neg (by simp), if_pos (show (!false) = true from rfl)]
    dsimp only
    simp only [expandLoop]
    refine ⟨nodeFor be pv ply epd (R.turn epd) (R.legalMovesCount epd)
      ⟨some 0, 0, 0, epd ++ "\n", [], [], { st with visited := epd :: st.visited }⟩,
      ?_, rfl, by simp [nodeFor_score]⟩
    simp [write_node]

/-- When the provider returns a non-empty list whose best score is already
`≤ alpha`, the loop breaks on its first iteration after initializing
`bestscore`: one node with the top score, no edge, no submit. -/
theorem recurse_all_pruned (R : ChessRules) (P : Provider) (be : Nat)
    (depth alpha beta : Int) (pv : Bool) (ply : Nat) (epd : String) (st : GState)
    (ms : List MoveCandidate)
    (hcm : R.isCheckmate epd = false) (hsm : R.isStalemate epd = false)
    (hget : P epd = Except.ok ms) (hne : ms ≠ [])
    (hall : ∀ m ∈ ms, m.score ≤ alpha) (hv : epd ∉ st.visited) :
    ∃ (node : Node) (s : Int),
      recurse R P be depth alpha beta pv ply epd st =
        ({ st with visited := epd :: st.visited, fetches := st.fetches ++ [epd],
                   nodes := st.nodes ++ [node] }, none) ∧
      node.epd = epd ∧ node.score = some s ∧ (∃ m ∈ ms, m.score = s) ∧
      ∀ m ∈ ms, m.score ≤ s := by
  obtain ⟨m0, rest, hsort⟩ : ∃ m0 rest, sortDesc ms = m0 :: rest := by
    cases hs : sortDesc ms with
    | nil => exact absurd (sortDesc_eq_nil_iff.mp hs) hne
    | cons a l => exact ⟨a, l, rfl⟩
  have hm0mem : m0 ∈ ms := mem_sortDesc.mp (by rw [hsort]; exact List.mem_cons_self _ _)
  have hmax : ∀ m ∈ ms, m.score ≤ m0.score := by
    intro m hm
    have hmem : m ∈ sortDesc ms := mem_sortDesc.mpr hm
    rw [hsort] at hmem
    rcases List.mem_cons.mp hmem with rfl | hmem
    · exact le_refl _
    · have hp := sortDesc_sorted ms
      rw [hsort] at hp
      exact (List.pairwise_cons.mp hp).1 m hmem
  rw [recurse]
  simp only [recurseFuel, taskBody]
  rw [if_neg hv, fetchMoves, hcm, hsm]
  rw [if_neg (by simp), if_neg (by simp), hget]
  dsimp only
  rw [hsort]
  simp only [expandLoop]
  rw [if_pos (hall m0 hm0mem)]
  refine ⟨nodeFor be pv ply epd (R.turn epd) (R.legalMovesCount epd)
    ⟨some m0.score, 0, 0, epd ++ "\n", [], [],
      { st with visited := epd :: st.visited, fetches := st.fetches ++ [epd] }⟩,
    m0.score, ?_, rfl, rfl, ⟨m0, hm0mem, rfl⟩, hmax⟩
  simp [write_node]

/-- Entry gate: a task whose position is already visited returns immediately,
leaving the state untouched and raising nothing. -/
theorem recurse_visited (R : ChessRules) (P : Provider) (be : Nat)
    (depth alpha beta : Int) (pv : Bool) (ply : Nat) (epd : String) (st : GState)
    (hv : epd ∈ st.visited) :
    recurse R P be depth alpha beta pv ply epd st = (st, none) := by
  rw [recurse]
  simp only [recurseFuel, taskBody]
  rw [if_pos hv]

/-- Gate/body decomposition of `recurseFuel` at positive fuel: the visited
check (the read at lines 326-328) followed, in the unvisited case, by
`taskBody` (whose first action is the add at line 329).  The two are separate
atomic steps in the source — nothing prevents a thread switch between a
worker's check and its add. -/
theorem recurseFuel_gate (R : ChessRules) (P : Provider) (be : Nat)
    (fuel : Nat) (depth alpha beta : Int) (pv : Bool) (ply : Nat)
    (epd : String) (st : GState) :
    recurseFuel R P be (fuel + 1) depth alpha beta pv ply epd st =
      if epd ∈ st.visited then (st, none)
      else taskBody R P be (recurseFuel R P be fuel) depth alpha beta pv ply epd st := rfl

/-- Under an atomic check-and-mark — as the spec demands, and as realized by
the single-thread schedule `recurseFuel`, in which no worker can interleave
between another's gate check and add — each distinct position is emitted as a
node at most once and fetched at most once per run, and a task arriving at a
visited position terminates immediately with no output.  The source's gate is
not atomic, so this holds only for the intended design, not for every
concurrent execution of the code: see `C1_dedup_race`. -/
theorem dedup_under_atomic_gate :
    (∀ (R : ChessRules) (P : Provider) (be : Nat) (depth alpha beta : Int) (pv : Bool)
        (ply : Nat) (epd : String) (st : GState), epd ∈ st.visited →
        recurse R P be depth alpha beta pv ply epd st = (st, none)) ∧
    (∀ (R : ChessRules) (P : Provider) (be : Nat) (depth : Int) (epd : String)
        (alpha beta : Int),
        ((generate_graph R P be depth epd alpha beta).1.nodes.map (fun nd => nd.epd)).Nodup ∧
        (generate_graph R P be depth epd alpha beta).1.fetches.Nodup) := by
  constructor
  · exact recurse_visited
  · intro R P be depth epd alpha beta
    have hempty : StInv GState.empty := by
      refine ⟨by simp [GState.empty], ?_, by simp [GState.empty], ?_⟩
      · intro nd h
        simp [GState.empty] at h
      · intro f h
        simp [GState.empty] at h
    rw [generate_graph]
    by_cases ht : R.turn epd
    · rw [if_pos ht, recurse]
      have h := ((recurseFuel_evolves R P be (depth.toNat + 1) depth alpha beta true 0 epd
        GState.empty).2.2.2.2.2.2) hempty
      exact ⟨h.1, h.2.2.1⟩
    · rw [if_neg ht, recurse]
      have h := ((recurseFuel_evolves R P be (depth.toNat + 1) depth (-beta) (-alpha) true 0 epd
        GState.empty).2.2.2.2.2.2) hempty
      exact ⟨h.1, h.2.2.1⟩

/-- C1: the dedup guarantee fails on the code.  The gate at lines 326-329 is
a non-atomic check-then-add on an unlocked set, so two workers that reach the
same (unvisited) position can both evaluate the membership test before either
executes the add — here the test passes for both, since
`GState.empty.visited.contains "root" = false` and neither worker has yet run
its body — after which each worker runs the task body: the position's node is
emitted twice and its score fetch (children computation) is performed twice,
violating the claimed at-most-once property.  (The schedule shown — both
checks, then the two bodies one after the other — is a legal interleaving of
the source's `ThreadPoolExecutor` workers: the GIL makes each set operation
atomic but allows a switch between the test and the add.) -/
theorem C1_dedup_race :
    GState.empty.visited.contains "root" = false ∧
    ((taskBody rules7 provider7 3 (recurseFuel rules7 provider7 3 0) 0 0 15 true 0 "root"
        (taskBody rules7 provider7 3 (recurseFuel rules7 provider7 3 0) 0 0 15 true 0 "root"
          GState.empty).1).1.nodes.map (fun nd => nd.epd)) = ["root", "root"] ∧
    (taskBody rules7 provider7 3 (recurseFuel rules7 provider7 3 0) 0 0 15 true 0 "root"
        (taskBody rules7 provider7 3 (recurseFuel rules7 provider7 3 0) 0 0 15 true 0 "root"
          GState.empty).1).1.fetches = ["root", "root"] := by
  refine ⟨rfl, by decide, by decide⟩

/-- C2: every candidate processed by the expansion loop gets child depth
`remainingDepth - 1` when its score equals the running best score, and
`remainingDepth - ⌊1.5 + log₂ rank⌋` otherwise, where rank is its 1-based
position among the candidates that passed the alpha check; the first (top)
candidate is always a best reply, so its child depth is `remainingDepth - 1`
and the decay rule never applies to it. -/
theorem C2_depth_rule
    (R : ChessRules) (depth alpha beta : Int) (pv : Bool) (ply : Nat)
    (epdfrom : String) (turn : Bool) (ms : List MoveCandidate) (ed : Nat)
    (tt : String) (pd : List SubmitEvent) (st : GState) :
    (∀ t ∈ (expandLoop R depth alpha beta pv ply epdfrom turn ms none 0 ed tt pd [] st).trace,
        t.newDepth =
          if t.isBest then depth - 1 else depth - ⌊(1.5 : ℝ) + Real.logb 2 (t.rank : ℝ)⌋) ∧
    (∀ (i : Nat) (t : TraceEntry),
        ((expandLoop R depth alpha beta pv ply epdfrom turn ms none 0 ed tt pd [] st).trace)[i]?
            = some t → t.rank = i + 1) ∧
    (∀ (t : TraceEntry) (ts : List TraceEntry),
        (expandLoop R depth alpha beta pv ply epdfrom turn ms none 0 ed tt pd [] st).trace
            = t :: ts → t.isBest = true ∧ t.newDepth = depth - 1) := by
  refine ⟨?_, ?_, ?_⟩
  · intro t ht
    rcases expandLoop_trace_formula R depth alpha beta pv ply epdfrom turn ms none 0 ed tt pd
        [] st t ht with h | ⟨hnd, _, hrank⟩
    · simp at h
    · rw [hnd, decayPly_eq_floor t.rank hrank]
  · intro i t ht
    have := expandLoop_trace_rank R depth alpha beta pv ply epdfrom turn ms none 0 ed tt pd st i t ht
    omega
  · intro t ts ht
    exact expandLoop_trace_head R depth alpha beta pv ply epdfrom turn ms ed tt pd st t ts ht

/-- Witness for C2: in the scenario loop the second processed candidate
(score 20) has rank 2, is not a best reply, and its recorded child depth
satisfies the floor formula; the trace itself is evaluated concretely. -/
theorem C2_depth_rule_witness :
    ((expandLoop rules7 2 0 15 true 0 "root" true
        [⟨30, "e2e4"⟩, ⟨20, "d2d4"⟩, ⟨-5, "a2a3"⟩] none 0 0 "root\n" [] []
        GState.empty).trace)[1]? = some ⟨20, false, 2, 0⟩ ∧
    (⟨20, false, 2, 0⟩ : TraceEntry).rank = 1 + 1 ∧
    (⟨20, false, 2, 0⟩ : TraceEntry).newDepth =
      (if (⟨20, false, 2, 0⟩ : TraceEntry).isBest then 2 - 1
       else 2 - ⌊(1.5 : ℝ) + Real.logb 2 (((⟨20, false, 2, 0⟩ : TraceEntry).rank : Nat) : ℝ)⌋) :=
  ⟨by decide,
   (C2_depth_rule rules7 2 0 15 true 0 "root" true
      [⟨30, "e2e4"⟩, ⟨20, "d2d4"⟩, ⟨-5, "a2a3"⟩] 0 "root\n" [] GState.empty).2.1 1
      ⟨20, false, 2, 0⟩ (by decide),
   (C2_depth_rule rules7 2 0 15 true 0 "root" true
      [⟨30, "e2e4"⟩, ⟨20, "d2d4"⟩, ⟨-5, "a2a3"⟩] 0 "root\n" [] GState.empty).1
      ⟨20, false, 2, 0⟩ (by decide)⟩

/-- C3: the expansion loop stops at the first candidate whose score is
≤ alpha — the processed candidates are exactly the longest prefix of the
(sorted) list with scores above alpha — so every edge emitted by the task has
score strictly above the task's alpha bound. -/
theorem C3_alpha_cutoff
    (R : ChessRules) (depth alpha beta : Int) (pv : Bool) (ply : Nat)
    (epdfrom : String) (turn : Bool) (ms : List MoveCandidate) (bs : Option Int)
    (ef ed : Nat) (tt : String) (pd : List SubmitEvent) (st : GState) :
    (((expandLoop R depth alpha beta pv ply epdfrom turn ms bs ef ed tt pd [] st).trace).map
        (fun t => t.score)
      = (ms.map (fun m => m.score)).takeWhile (fun s => decide (alpha < s))) ∧
    (∀ e ∈ (expandLoop R depth alpha beta pv ply epdfrom turn ms bs ef ed tt pd [] st).st.edges,
      e ∈ st.edges ∨ alpha < e.score) := by
  constructor
  · exact expandLoop_trace_scores R depth alpha beta pv ply epdfrom turn ms bs ef ed tt pd st
  · intro e he
    obtain ⟨Δ, hΔ, hgt⟩ :=
      expandLoop_st R depth alpha beta pv ply epdfrom turn ms bs ef ed tt pd [] st
    rw [hΔ] at he
    rcases List.mem_append.mp he with h | h
    · exact Or.inl h
    · exact Or.inr (hgt e h)

/-- Witness for C3: the scenario's first emitted edge (score 30) is either an
old edge or has score above alpha = 0. -/
theorem C3_alpha_cutoff_witness :
    (⟨"root", "root:e2e4", "e2e4", "e2e4", true, 30, true, false⟩ : Edge)
        ∈ GState.empty.edges ∨
      (0 : Int) < (⟨"root", "root:e2e4", "e2e4", "e2e4", true, 30, true, false⟩ : Edge).score :=
  (C3_alpha_cutoff rules7 2 0 15 true 0 "root" true
    [⟨30, "e2e4"⟩, ⟨20, "d2d4"⟩, ⟨-5, "a2a3"⟩] none 0 0 "root\n" [] GState.empty).2
    ⟨"root", "root:e2e4", "e2e4", "e2e4", true, 30, true, false⟩ (by decide)

/-- C4: every task submitted anywhere below a `recurse` call has child depth
satisfying `0 ≤ childDepth < poolIndex`, where `poolIndex` is the submitting
(parent) task's own remaining depth; hence depth strictly decreases from
parent to child and no task is scheduled with negative remaining depth. -/
theorem C4_depth_monotonic
    (R : ChessRules) (P : Provider) (be : Nat) (depth alpha beta : Int) (pv : Bool)
    (ply : Nat) (epd : String) (st : GState) :
    ∀ s ∈ (recurse R P be depth alpha beta pv ply epd st).1.submits,
      s ∈ st.submits ∨ (0 ≤ s.depth ∧ s.depth < s.poolIndex) := by
  rw [recurse]
  exact (recurseFuel_evolves R P be (depth.toNat + 1) depth alpha beta pv ply epd
    st).2.2.2.2.2.1

/-- Witness for C4: the scenario's first submitted child task (depth 1,
submitted from the root task at depth 2) satisfies the bound. -/
theorem C4_depth_monotonic_witness :
    (⟨2, "root:e2e4", 1, -15, 0, true, 1, true⟩ : SubmitEvent) ∈ GState.empty.submits ∨
      (0 ≤ (⟨2, "root:e2e4", 1, -15, 0, true, 1, true⟩ : SubmitEvent).depth ∧
        (⟨2, "root:e2e4", 1, -15, 0, true, 1, true⟩ : SubmitEvent).depth
          < (⟨2, "root:e2e4", 1, -15, 0, true, 1, true⟩ : SubmitEvent).poolIndex) :=
  C4_depth_monotonic rules7 provider7 3 2 0 15 true 0 "root" GState.empty
    ⟨2, "root:e2e4", 1, -15, 0, true, 1, true⟩ (by decide)

/-- C5: a position with zero legal moves yields a node with bestScore -30000
when the side to move is in check (checkmate) and 0 otherwise (stalemate),
with zero edges, zero submitted children, and no score fetch. -/
theorem C5_terminal_scoring
    (R : ChessRules) (P : Provider) (be : Nat) (depth alpha beta : Int) (pv : Bool)
    (ply : Nat) (epd : String) (st : GState)
    (hWF : R.WF) (hlc : R.legalMovesCount epd = 0) (hv : epd ∉ st.visited) :
    ∃ node : Node,
      recurse R P be depth alpha beta pv ply epd st =
        ({ st with visited := epd :: st.visited, nodes := st.nodes ++ [node] }, none) ∧
      node.epd = epd ∧ node.score = some (if R.inCheck epd then -30000 else 0) :=
  recurse_terminal R P be depth alpha beta pv ply epd st hWF hlc hv

/-- Witness for C5: the all-checkmate rules at a fresh position. -/
theorem C5_terminal_scoring_witness :
    ∃ node : Node,
      recurse rulesMate providerEmpty 3 2 0 15 true 0 "mate" GState.empty =
        ({ GState.empty with
            visited := "mate" :: GState.empty.visited,
            nodes := GState.empty.nodes ++ [node] }, none) ∧
      node.epd = "mate" ∧
      node.score = some (if rulesMate.inCheck "mate" then -30000 else 0) :=
  C5_terminal_scoring rulesMate providerEmpty 3 2 0 15 true 0 "mate" GState.empty
    (fun _ => ⟨rfl, rfl⟩) rfl (by decide)

/-- Counterexample to C6 as stated: with `--source engine` an engine failure
is not converted to an empty candidate list — `get_moves` returns the raised
error, and the exception escapes the (root) `recurse` call; moreover even the
chessdb and lichess adapters raise when a status-ok response carries a
malformed move entry, because the per-move field extraction (lines 145-147
resp. 223-233) lies outside their try/except, and such an error likewise
escapes `recurse`. -/
theorem C6_provider_error_counterexample :
    get_moves Source.engine failBackends cfg0 [] "start" = .error "engine I/O failure" ∧
    (recurse rules7 engineProviderFail 3 2 0 15 true 0 "start" GState.empty).2
      = some "engine I/O failure" ∧
    get_moves Source.chessdb malformedBackends cfg0 [] "start" = .error "KeyError: score" ∧
    get_moves Source.lichess malformedBackends cfg0 [] "start" = .error "KeyError: white" ∧
    (recurse rules7 chessdbProviderMalformed 3 2 0 15 true 0 "start" GState.empty).2
      = some "KeyError: score" :=
  ⟨rfl, by decide, rfl, rfl, by decide⟩

/-- C6 (amended): the chessdb and lichess adapters convert every
transport-level failure — I/O failure, timeout, HTTP error, or a response
whose envelope fails to decode, i.e. everything their try/except covers — to
a normal return (the failed fetch contributes an empty list); and with a
provider that never raises, no exception escapes `recurse`.  (What still
raises, per the counterexample: the engine adapter, which handles nothing,
and a malformed move entry inside a status-ok chessdb/lichess response,
whose field extraction happens outside the try.) -/
theorem C6_provider_error_amended :
    (∀ (B : Backends) (cfg : GConfig) (cache : Cache) (epd e : String),
      B.chessdbBackend epd = Except.error e →
      ∃ r, get_moves Source.chessdb B cfg cache epd = .ok r) ∧
    (∀ (B : Backends) (cfg : GConfig) (cache : Cache) (epd e : String),
      B.lichessBackend epd = Except.error e →
      ∃ r, get_moves Source.lichess B cfg cache epd = .ok r) ∧
    (∀ (R : ChessRules) (P : Provider) (be : Nat) (depth alpha beta : Int) (pv : Bool)
        (ply : Nat) (epd : String) (st : GState),
      (∀ e, ∃ ms, P e = Except.ok ms) →
      (recurse R P be depth alpha beta pv ply epd st).2 = none) := by
  refine ⟨?_, ?_, ?_⟩
  · intro B cfg cache epd e herr
    simp only [get_moves, get_moves_chessdb]
    have hfresh : chessdbFresh B.chessdbBackend epd = .ok [] := by
      unfold chessdbFresh
      rw [herr]
      rfl
    cases hfind : cacheFind cache (CacheKey.chessdbKey epd) with
    | some stdmoves =>
      dsimp only
      by_cases hlen : stdmoves.length > 0
      · rw [if_pos hlen]
        exact ⟨_, rfl⟩
      · rw [if_neg hlen, hfresh]
        exact ⟨_, rfl⟩
    | none =>
      dsimp only
      rw [hfresh]
      exact ⟨_, rfl⟩
  · intro B cfg cache epd e herr
    simp only [get_moves, get_moves_lichess]
    have hfresh : lichessFresh B.lichessBackend B.wdlScore epd = .ok [] := by
      unfold lichessFresh lichess_api_call
      rw [herr]
      rfl
    cases hfind : cacheFind cache (CacheKey.lichessKey epd cfg.enginemaxmoves cfg.lichessdb) with
    | some stdmoves =>
      dsimp only
      by_cases hlen : stdmoves.length > 0
      · rw [if_pos hlen]
        exact ⟨_, rfl⟩
      · rw [if_neg hlen, hfresh]
        exact ⟨_, rfl⟩
    | none =>
      dsimp only
      rw [hfresh]
      exact ⟨_, rfl⟩
  · intro R P be depth alpha beta pv ply epd st htot
    rw [recurse]
    exact recurseFuel_ok R P be htot (depth.toNat + 1) depth alpha beta pv ply epd st

/-- Witness for the amended C6: with backends whose transport raises, the
chessdb and lichess adapters return normally, and with a provider that never
raises the root call reports no escaping exception. -/
theorem C6_provider_error_amended_witness :
    (∃ r, get_moves Source.chessdb failBackends cfg0 [] "start" = .ok r) ∧
    (∃ r, get_moves Source.lichess failBackends cfg0 [] "start" = .ok r) ∧
    (recurse rules7 provider7 3 2 0 15 true 0 "root" GState.empty).2 = none :=
  ⟨C6_provider_error_amended.1 failBackends cfg0 [] "start" "connection timeout" rfl,
   C6_provider_error_amended.2.1 failBackends cfg0 [] "start" "connection timeout" rfl,
   C6_provider_error_amended.2.2 rules7 provider7 3 2 0 15 true 0 "root" GState.empty
    (fun e => by
      unfold provider7
      split
      · exact ⟨_, rfl⟩
      · exact ⟨_, rfl⟩)⟩

/-- C7: scenario — root with remainingDepth 2, alpha 0, beta 15 and stub
scores 30, 20, -5: exactly two edges are drawn, both from the root (e2e4 with
score 30 marked principal, d2d4 with score 20 not), and the loop stops at
a2a3 (-5 ≤ alpha). -/
theorem C7_scenario :
    ((generate_graph rules7 provider7 3 2 "root" 0 15).1.edges.map
        (fun e => (e.epdfrom, e.ucimove, e.score, e.pvEdge)))
      = [("root", "e2e4", 30, true), ("root", "d2d4", 20, false)] := by
  decide

/-- C8: a cached empty list is not returned by the chessdb and lichess
adapters — they perform the fresh fetch, return its result, and overwrite the
cache entry with it (or let its exception propagate, skipping the cache
write) — while the engine adapter returns any cached list, empty or not,
without calling the engine. -/
theorem C8_cache_policy :
    (∀ (backend : String → Except String ChessdbResp) (cache : Cache) (epd : String),
      cacheFind cache (CacheKey.chessdbKey epd) = some [] →
      get_moves_chessdb backend cache epd =
        match chessdbFresh backend epd with
        | .error e => .error e
        | .ok stdmoves => .ok (stdmoves, (CacheKey.chessdbKey epd, stdmoves) :: cache)) ∧
    (∀ (backend : String → Except String LichessResp) (wdl : Nat → Nat → Nat → Int)
        (mm : Nat) (db : String) (cache : Cache) (epd : String),
      cacheFind cache (CacheKey.lichessKey epd mm db) = some [] →
      get_moves_lichess backend wdl mm db cache epd =
        match lichessFresh backend wdl epd with
        | .error e => .error e
        | .ok stdmoves => .ok (stdmoves, (CacheKey.lichessKey epd mm db, stdmoves) :: cache)) ∧
    (∀ (eb : String → Except String (List MoveCandidate)) (eng : String) (edep mm : Nat)
        (cache : Cache) (epd : String) (ms : List MoveCandidate),
      cacheFind cache (CacheKey.engineKey epd eng edep mm) = some ms →
      get_moves_engine eb eng edep mm cache epd = .ok (ms, cache)) := by
  refine ⟨?_, ?_, ?_⟩
  · intro backend cache epd hfind
    simp [get_moves_chessdb, hfind]
  · intro backend wdl mm db cache epd hfind
    simp [get_moves_lichess, hfind]
  · intro eb eng edep mm cache epd ms hfind
    simp [get_moves_engine, hfind]

/-- Witness for C8 at concrete caches and backends: the chessdb and lichess
empty entries are refetched, the engine's cached empty entry is returned even
though its backend would raise. -/
theorem C8_cache_policy_witness :
    get_moves_chessdb chessdbB1 cacheEmptyEntries "p1" =
      (match chessdbFresh chessdbB1 "p1" with
       | .error e => .error e
       | .ok stdmoves => .ok (stdmoves, (CacheKey.chessdbKey "p1", stdmoves) :: cacheEmptyEntries)) ∧
    get_moves_lichess lichessB1 (fun _ _ _ => 35) 10 "masters" cacheEmptyEntries "p1" =
      (match lichessFresh lichessB1 (fun _ _ _ => 35) "p1" with
       | .error e => .error e
       | .ok stdmoves =>
         .ok (stdmoves, (CacheKey.lichessKey "p1" 10 "masters", stdmoves) :: cacheEmptyEntries)) ∧
    get_moves_engine failBackends.engineBackend "stockfish" 20 10 cacheEmptyEntries "p1" =
      .ok ([], cacheEmptyEntries) :=
  ⟨C8_cache_policy.1 chessdbB1 cacheEmptyEntries "p1" (by decide),
   C8_cache_policy.2.1 lichessB1 (fun _ _ _ => 35) 10 "masters" cacheEmptyEntries "p1"
     (by decide),
   C8_cache_policy.2.2 failBackends.engineBackend "stockfish" 20 10 cacheEmptyEntries "p1" []
     (by decide)⟩

/-- C9: every child task appended to the futures list is submitted to the
executor pool indexed by the parent task's own (pre-decrement) remaining
depth, with bounds `(-beta, -alpha)` negated from the parent's, pv flag
`pvNode && isBestReply`, and ply `plyFromRoot + 1`. -/
theorem C9_submission
    (R : ChessRules) (depth alpha beta : Int) (pv : Bool) (ply : Nat)
    (epdfrom : String) (turn : Bool) (ms : List MoveCandidate) (bs : Option Int)
    (ef ed : Nat) (tt : String) (tr : List TraceEntry) (st : GState) :
    ∀ s ∈ (expandLoop R depth alpha beta pv ply epdfrom turn ms bs ef ed tt [] tr st).pending,
      s.poolIndex = depth ∧ s.alpha = -beta ∧ s.beta = -alpha ∧
        s.pv = (pv && s.isBest) ∧ s.ply = ply + 1 := by
  intro s hs
  rcases expandLoop_pending R depth alpha beta pv ply epdfrom turn ms bs ef ed tt [] tr st s hs
    with h | ⟨h1, h2, h3, h4, h5, _, _⟩
  · simp at h
  · exact ⟨h1, h2, h3, h4, h5⟩

/-- Witness for C9: the scenario's first submitted child task is on pool 2
(the parent's depth), with bounds (-15, 0), pv flag true, ply 1. -/
theorem C9_submission_witness :
    (⟨2, "root:e2e4", 1, -15, 0, true, 1, true⟩ : SubmitEvent).poolIndex = 2 ∧
    (⟨2, "root:e2e4", 1, -15, 0, true, 1, true⟩ : SubmitEvent).alpha = -15 ∧
    (⟨2, "root:e2e4", 1, -15, 0, true, 1, true⟩ : SubmitEvent).beta = -0 ∧
    (⟨2, "root:e2e4", 1, -15, 0, true, 1, true⟩ : SubmitEvent).pv =
      (true && (⟨2, "root:e2e4", 1, -15, 0, true, 1, true⟩ : SubmitEvent).isBest) ∧
    (⟨2, "root:e2e4", 1, -15, 0, true, 1, true⟩ : SubmitEvent).ply = 0 + 1 :=
  C9_submission rules7 2 0 15 true 0 "root" true
    [⟨30, "e2e4"⟩, ⟨20, "d2d4"⟩, ⟨-5, "a2a3"⟩] none 0 0 "root\n" [] GState.empty
    ⟨2, "root:e2e4", 1, -15, 0, true, 1, true⟩ (by decide)

/-- C10: a non-terminal position whose provider candidates all score ≤ alpha
still gets an emitted node: bestScore is initialized from the first sorted
candidate before the alpha break, so the node carries the maximal candidate
score (not None) while zero edges and zero child tasks are produced. -/
theorem C10_node_on_full_cutoff
    (R : ChessRules) (P : Provider) (be : Nat) (depth alpha beta : Int) (pv : Bool)
    (ply : Nat) (epd : String) (st : GState) (ms : List MoveCandidate)
    (hcm : R.isCheckmate epd = false) (hsm : R.isStalemate epd = false)
    (hget : P epd = Except.ok ms) (hne : ms ≠ [])
    (hall : ∀ m ∈ ms, m.score ≤ alpha) (hv : epd ∉ st.visited) :
    ∃ (node : Node) (s : Int),
      recurse R P be depth alpha beta pv ply epd st =
        ({ st with visited := epd :: st.visited, fetches := st.fetches ++ [epd],
                   nodes := st.nodes ++ [node] }, none) ∧
      node.epd = epd ∧ node.score = some s ∧ (∃ m ∈ ms, m.score = s) ∧
      ∀ m ∈ ms, m.score ≤ s :=
  recurse_all_pruned R P be depth alpha beta pv ply epd st ms hcm hsm hget hne hall hv

/-- Witness for C10: a provider offering only scores -7 and -9 against
alpha = 0 still produces a node (bestScore -7), no edges, no submits. -/
theorem C10_node_on_full_cutoff_witness :
    ∃ (node : Node) (s : Int),
      recurse rules7 providerLow 3 2 0 15 true 0 "low" GState.empty =
        ({ GState.empty with
            visited := "low" :: GState.empty.visited,
            fetches := GState.empty.fetches ++ ["low"],
            nodes := GState.empty.nodes ++ [node] }, none) ∧
      node.epd = "low" ∧ node.score = some s ∧
      (∃ m ∈ [(⟨-7, "a2a3"⟩ : MoveCandidate), ⟨-9, "h2h4"⟩], m.score = s) ∧
      ∀ m ∈ [(⟨-7, "a2a3"⟩ : MoveCandidate), ⟨-9, "h2h4"⟩], m.score ≤ s :=
  C10_node_on_full_cutoff rules7 providerLow 3 2 0 15 true 0 "low" GState.empty
    [⟨-7, "a2a3"⟩, ⟨-9, "h2h4"⟩] rfl rfl rfl (by decide) (by decide) (by decide)

/-- The fuel argument of `recurseFuel` is semantically irrelevant: any two
sufficient fuels (greater than `depth.toNat`) give the same result, so the
fuel-exhaustion branch is unreachable from `recurse` and the embedding
computes the source's recursion exactly. -/
theorem recurseFuel_fuel_irrel (R : ChessRules) (P : Provider) (be : Nat) :
    ∀ (f1 f2 : Nat) (depth alpha beta : Int) (pv : Bool) (ply : Nat) (epd : String)
      (st : GState), depth.toNat < f1 → depth.toNat < f2 →
      recurseFuel R P be f1 depth alpha beta pv ply epd st
        = recurseFuel R P be f2 depth alpha beta pv ply epd st := by
  intro f1
  induction f1 with
  | zero =>
    intro f2 depth alpha beta pv ply epd st h1 h2
    omega
  | succ f1 ih =>
    intro f2 depth alpha beta pv ply epd st h1 h2
    cases f2 with
    | zero => omega
    | succ f2 =>
      simp only [recurseFuel, taskBody]
      by_cases hv : epd ∈ st.visited
      · rw [if_pos hv, if_pos hv]
      · rw [if_neg hv, if_neg hv]
        cases hfm : fetchMoves R P epd { st with visited := epd :: st.visited } with
        | raised e st2 => rfl
        | moves moves b0 st2 =>
          have hpend : ∀ s ∈ (expandLoop R depth alpha beta pv ply epd (R.turn epd)
              (sortDesc moves) b0 0 0 (epd ++ "\n") [] []
              st2).pending, s.depth.toNat < depth.toNat := by
            intro s hs
            rcases expandLoop_pending R depth alpha beta pv ply epd (R.turn epd)
                (sortDesc moves) b0 0 0 (epd ++ "\n") [] [] st2 s hs with h | ⟨_, _, _, _, _, hd0, hdlt⟩
            · simp at h
            · omega
          have hfold : ∀ (subs : List SubmitEvent),
              (∀ s ∈ subs, s.depth.toNat < depth.toNat) → ∀ (st0 : GState),
              subs.foldl (fun acc s =>
                (recurseFuel R P be f1 s.depth s.alpha s.beta s.pv s.ply s.epd acc).1) st0
                = subs.foldl (fun acc s =>
                  (recurseFuel R P be f2 s.depth s.alpha s.beta s.pv s.ply s.epd acc).1) st0 := by
            intro subs
            induction subs with
            | nil => intro _ st0; rfl
            | cons s rest ihs =>
              intro hb st0
              rw [List.foldl_cons, List.foldl_cons]
              rw [ih f2 s.depth s.alpha s.beta s.pv s.ply s.epd st0
                (by have := hb s (List.mem_cons_self _ _); omega)
                (by have := hb s (List.mem_cons_self _ _); omega)]
              exact ihs (fun x hx => hb x (List.mem_cons_of_mem _ hx)) _
          dsimp only
          rw [hfold _ hpend]
